import Mathlib

/-!
Verification development for `finetune`'s `SequenceLabeler`
(`src/finetune/sequence_labeling.py`).

The file shallowly embeds the stitching logic of `SequenceLabeler.predict`
(hard-label path) and `SequenceLabeler.predict_proba` (soft-label path):
chunk iteration, document-boundary detection via the encoder start marker,
window selection by chunk position, sentinel skipping, span merging and
per-document emission.  Python lists become Lean `List`s, Python slices are
modelled by `pySlice` with Python's exact clamping semantics, Python `zip`
truncation is modelled by structural recursion on both lists, and Python
integers are `Int`.
-/

namespace Finetune

/-! ## Python list primitives -/

/-- Normalisation of one Python slice index against a list of length `len`:
negative indices count from the end, and the result is clamped to `[0, len]`. -/
def pyIdx (len : Nat) (i : Int) : Nat :=
  if i < 0 then (i + len).toNat else min i.toNat len

/-- Python slice `xs[a:b]` (arbitrary `Int` bounds, Python clamping). -/
def pySlice {α : Type} (xs : List α) (a b : Int) : List α :=
  (xs.take (pyIdx xs.length b)).drop (pyIdx xs.length a)

/-- Python indexing `xs[i]` on a list of lists; negative `i` counts from the
end.  An index that Python would reject with `IndexError` yields `[]` here;
no theorem below depends on that case. -/
def pyGet {σ : Type} (xs : List (List σ)) (i : Int) : List σ :=
  if i < 0 then xs.getD ((xs.length : Int) + i).toNat [] else xs.getD i.toNat []

/-! ## Data model

One `Chunk` bundles, for a single chunk index of `arr_encoded`, the pieces of
`ArrayEncodedOutput` that `predict` / `predict_proba` read: the first token id
`token_ids[chunk_idx][0][0]` (compared with `self.encoder.start` to detect a
document boundary), the per-token char locations `char_locs[chunk_idx]`
(sentinel `-1` for padding / special tokens), and the per-token token values
`tokens[chunk_idx]` (position-aligned with `char_locs`). -/

structure Chunk (τ : Type) where
  firstTokenId : Int
  charLocs : List Int
  tokens : List τ
  deriving Repr, DecidableEq

/-- Loop state of `SequenceLabeler.predict`: the batch-level accumulators
`all_subseqs` / `all_labels`, the per-document accumulators
`doc_subseqs` / `doc_labels`, the current document index `doc_idx`
(initially `-1`) and the character cursor `start_of_token`. -/
structure StitchState (σ L : Type) where
  allSubseqs : List (List (List σ))
  allLabels : List (List L)
  docSubseqs : List (List σ)
  docLabels : List L
  docIdx : Int
  startOfToken : Int
  deriving Repr, DecidableEq

/-- Initial state of the `predict` loop (`all_subseqs = []`, `all_labels = []`,
`doc_idx = -1`; the per-document fields are reset before first use at every
document-initial chunk). -/
def initState (σ L : Type) : StitchState σ L :=
  ⟨[], [], [], [], -1, 0⟩

/-- `step_size` as computed in `predict` / `predict_proba`:
`chunk_size = max_length - 2`, `step_size = chunk_size // 3` with Python's
floor division on integers. -/
def stepOf (maxLength : Nat) : Int :=
  ((maxLength : Int) - 2).fdiv 3

/-- Window selection of `predict` lines 70-85 (identically `predict_proba`
lines 153-162): given the document-boundary flags of the current chunk,
keep the sub-range of a per-token sequence this chunk is authoritative for.
`start_of_doc ∧ end_of_doc`: no slicing; `start_of_doc` only:
`seq[:step_size*2]`; `end_of_doc` only: `seq[step_size:]`; neither:
`seq[step_size:step_size*2]`. -/
def windowSel {α : Type} (startOfDoc endOfDoc : Bool) (stepSize : Int)
    (xs : List α) : List α :=
  if startOfDoc then
    if endOfDoc then xs
    else pySlice xs 0 (stepSize * 2)
  else
    if endOfDoc then pySlice xs stepSize xs.length
    else pySlice xs stepSize (stepSize * 2)

/-- Body of the token loop of `predict` (lines 87-102) for one
`(label, position)` pair: sentinel positions (`-1`) are skipped; otherwise a
new span is opened when there is no open span or the label changed (in Python
`doc_labels[-1]` is only read when `doc_subseqs` is non-empty; the
`doc_labels = []` sub-case of the `getLast?` match is unreachable because the
two accumulators grow in lockstep), else the open span is extended; finally
the cursor advances to `position`. -/
def processToken {σ L : Type} [DecidableEq L] (X : List (List σ))
    (st : StitchState σ L) (label : L) (position : Int) : StitchState σ L :=
  if position = -1 then st
  else
    let piece := pySlice (pyGet X st.docIdx) st.startOfToken position
    let st' :=
      if st.docSubseqs.isEmpty ∨ st.docLabels.getLast? ≠ some label then
        { st with docSubseqs := st.docSubseqs ++ [piece],
                  docLabels := st.docLabels ++ [label] }
      else
        { st with docSubseqs :=
            st.docSubseqs.dropLast ++ [st.docSubseqs.getLastD [] ++ piece] }
    { st' with startOfToken := position }

/-- The token loop of `predict` over the zipped `(label, position)` pairs of
one chunk's authoritative window. -/
def processTokens {σ L : Type} [DecidableEq L] (X : List (List σ))
    (ps : List (L × Int)) (st : StitchState σ L) : StitchState σ L :=
  ps.foldl (fun st p => processToken X st p.1 p.2) st

/-- One iteration of the chunk loop of `predict` (lines 59-107): document
reset on a start-of-document chunk, window selection of `label_seq` and
`position_seq`, the token loop, and per-document emission on an
end-of-document chunk. -/
def processChunkHard {σ τ L : Type} [DecidableEq L] (X : List (List σ))
    (sid : Int) (stepSize : Int) (endOfDoc : Bool) (st : StitchState σ L)
    (c : Chunk τ) (labelSeq : List L) : StitchState σ L :=
  let startOfDoc := c.firstTokenId = sid
  let st0 :=
    if startOfDoc then
      { st with docSubseqs := [], docLabels := [],
                docIdx := st.docIdx + 1, startOfToken := 0 }
    else st
  let ls := windowSel startOfDoc endOfDoc stepSize labelSeq
  let ps := windowSel startOfDoc endOfDoc stepSize c.charLocs
  let st1 := processTokens X (ls.zip ps) st0
  if endOfDoc then
    { st1 with allSubseqs := st1.allSubseqs ++ [st1.docSubseqs],
               allLabels := st1.allLabels ++ [st1.docLabels] }
  else st1

/-- The chunk loop of `predict`:
`for chunk_idx, (label_seq, position_seq) in enumerate(zip(labels, arr_encoded.char_locs))`.
The structural recursion on both lists reproduces Python `zip`'s silent
truncation to the shorter sequence; `end_of_doc` is
`chunk_idx + 1 >= len(arr_encoded.char_locs) or token_ids[chunk_idx+1][0][0] == encoder.start`,
i.e. it looks ahead into the remaining chunk list (not the label list). -/
def stitchChunks {σ τ L : Type} [DecidableEq L] (X : List (List σ))
    (sid : Int) (stepSize : Int) :
    List (Chunk τ) → List (List L) → StitchState σ L → StitchState σ L
  | [], _, st => st
  | _ :: _, [], st => st
  | c :: cs, ls :: lss, st =>
    let endOfDoc :=
      match cs with
      | [] => true
      | c2 :: _ => c2.firstTokenId = sid
    stitchChunks X sid stepSize cs lss (processChunkHard X sid stepSize endOfDoc st c ls)

/-- `SequenceLabeler.predict` up to (excluding) the external format adapter
`finetune_to_indico_sequence`: compute `step_size` from `max_length`, run the
stitching loop, and return `(all_subseqs, all_labels)` — one entry per emitted
document record. -/
def predict {σ τ L : Type} [DecidableEq L] (maxLength : Nat) (sid : Int)
    (X : List (List σ)) (chunks : List (Chunk τ)) (labels : List (List L)) :
    List (List (List σ)) × List (List L) :=
  let st := stitchChunks X sid (stepOf maxLength) chunks labels (initState σ L)
  (st.allSubseqs, st.allLabels)

/-! ## Soft-label path (`predict_proba`) -/

/-- Loop state of `SequenceLabeler.predict_proba`: the batch accumulator
`result` and the per-document accumulator `seq_result` of
`(token, {class: probability})` pairs; the dict built by
`dict(zip(self.label_encoder.classes_, proba_t))` is modelled as the
association list `classes.zip proba_t`. -/
structure ProbaState (τ C P : Type) where
  result : List (List (τ × List (C × P)))
  seqResult : List (τ × List (C × P))
  deriving Repr, DecidableEq

/-- Initial state of the `predict_proba` loop (`result = []`; `seq_result` is
assigned at every document-initial chunk before first use). -/
def initProbaState (τ C P : Type) : ProbaState τ C P :=
  ⟨[], []⟩

/-- One iteration of the chunk loop of `predict_proba` (lines 147-173):
`seq_result` reset on a start-of-document chunk, window selection of
`token_seq` and `proba_seq`, emission of every `(token, dict)` pair of the
selected window (the loop at lines 164-168 applies no sentinel check), and
per-document emission on an end-of-document chunk. -/
def processChunkProba {τ C P : Type} (classes : List C) (sid : Int)
    (stepSize : Int) (endOfDoc : Bool) (st : ProbaState τ C P) (c : Chunk τ)
    (probaSeq : List (List P)) : ProbaState τ C P :=
  let startOfDoc := c.firstTokenId = sid
  let st0 := if startOfDoc then { st with seqResult := [] } else st
  let toks := windowSel startOfDoc endOfDoc stepSize c.tokens
  let prbs := windowSel startOfDoc endOfDoc stepSize probaSeq
  let st1 :=
    { st0 with seqResult :=
        st0.seqResult ++ (toks.zip prbs).map (fun p => (p.1, classes.zip p.2)) }
  if endOfDoc then { st1 with result := st1.result ++ [st1.seqResult] }
  else st1

/-- The chunk loop of `predict_proba`:
`for chunk_idx, (token_seq, proba_seq) in enumerate(zip(arr_encoded.tokens, batch_probas))`,
with the same `zip` truncation and the same `end_of_doc` look-ahead as the
hard path. -/
def probaChunks {τ C P : Type} (classes : List C) (sid : Int) (stepSize : Int) :
    List (Chunk τ) → List (List (List P)) → ProbaState τ C P → ProbaState τ C P
  | [], _, st => st
  | _ :: _, [], st => st
  | c :: cs, ps :: pss, st =>
    let endOfDoc :=
      match cs with
      | [] => true
      | c2 :: _ => c2.firstTokenId = sid
    probaChunks classes sid stepSize cs pss (processChunkProba classes sid stepSize endOfDoc st c ps)

/-- `SequenceLabeler.predict_proba`: compute `step_size` from `max_length`,
run the loop, return `result`. -/
def predict_proba {τ C P : Type} (maxLength : Nat) (classes : List C)
    (sid : Int) (chunks : List (Chunk τ)) (batchProbas : List (List (List P))) :
    List (List (τ × List (C × P))) :=
  (probaChunks classes sid (stepOf maxLength) chunks batchProbas
    (initProbaState τ C P)).result

/-! ## Decode adapter (`_predict_op` / `_predict_proba_op`) -/

/-- `SequenceLabeler._predict_op`: first component of the shared
`sequence_decode(logits, transition_matrix)` result. -/
def predictOp {Lo TM A B : Type} (sequence_decode : Lo → Option TM → A × B)
    (logits : Lo) (transitionMatrix : Option TM) : A :=
  (sequence_decode logits transitionMatrix).1

/-- `SequenceLabeler._predict_proba_op`: second component of the shared
`sequence_decode(logits, transition_matrix)` result. -/
def predictProbaOp {Lo TM A B : Type} (sequence_decode : Lo → Option TM → A × B)
    (logits : Lo) (transitionMatrix : Option TM) : B :=
  (sequence_decode logits transitionMatrix).2

/-! ## Spec-side definitions -/

/-- Spec-side (§4.2 of the specification, claim C1): the authoritative
half-open token-position range of a chunk, as a pair of Python slice bounds:
both flags: full range; `is_first` only: `[0, 2*step_size)`; `is_last` only:
`[step_size, end)`; neither: `[step_size, 2*step_size)`. -/
def authRange (isFirst isLast : Bool) (stepSize : Int) (len : Nat) : Int × Int :=
  if isFirst ∧ isLast then (0, len)
  else if isFirst then (0, stepSize * 2)
  else if isLast then (stepSize, len)
  else (stepSize, stepSize * 2)

/-- Modelled from the spec: the ChunkPlanner / `_text_to_ids` (§4.1), which is
not under `src/`.  From position `0` of a document's `(token, char-end)`
stream it emits chunks of up to `chunk_size` tokens, each subsequent chunk
starting `step_size` tokens after the previous one; the final chunk is
truncated to the remaining tokens; a document that fits in one chunk yields
exactly one chunk; a document with zero tokens yields zero chunks.  The fuel
argument (instantiated with the token count) bounds the recursion. -/
def planDoc {τ : Type} (chunkSize stepSize : Nat) :
    Nat → List (τ × Int) → List (List (τ × Int))
  | 0, _ => []
  | fuel + 1, toks =>
    if toks.length ≤ chunkSize then [toks]
    else toks.take chunkSize :: planDoc chunkSize stepSize fuel (toks.drop stepSize)

/-- Modelled from the spec: chunk encoding of one planned document (§2, §9).
The first chunk of a document begins with the tokenizer start marker (token
`startTok`, id `sid`, sentinel char-location `-1`); continuation chunks do
not, so their first token id differs from `sid` (modelled as `sid + 1`). -/
def encodeDoc {τ : Type} (sid : Int) (startTok : τ)
    (chunked : List (List (τ × Int))) : List (Chunk τ) :=
  match chunked with
  | [] => []
  | first :: rest =>
    { firstTokenId := sid,
      charLocs := -1 :: first.map Prod.snd,
      tokens := startTok :: first.map Prod.fst } ::
    rest.map (fun ch =>
      { firstTokenId := sid + 1,
        charLocs := ch.map Prod.snd,
        tokens := ch.map Prod.fst })

/-- Modelled from the spec: the whole tokenize-and-plan stage for a batch,
documents in input order, each document's chunks consecutive. -/
def planBatch {τ : Type} (maxLength : Nat) (sid : Int) (startTok : τ)
    (docTokens : List (List (τ × Int))) : List (Chunk τ) :=
  (docTokens.map (fun toks =>
    encodeDoc sid startTok
      (planDoc (maxLength - 2) (stepOf maxLength).toNat toks.length toks))).flatten

/-- `predict` run on a batch whose chunk stream comes from the spec-modelled
planner (used for claims about whole-batch behaviour). -/
def predictFull {σ τ L : Type} [DecidableEq L] (maxLength : Nat) (sid : Int)
    (startTok : τ) (X : List (List σ)) (docTokens : List (List (τ × Int)))
    (labels : List (List L)) : List (List (List σ)) × List (List L) :=
  predict maxLength sid X (planBatch maxLength sid startTok docTokens) labels

/-- `predict_proba` run on a batch whose chunk stream comes from the same
spec-modelled planner (used for claims about whole-batch behaviour of the
soft path). -/
def predict_probaFull {τ C P : Type} (maxLength : Nat) (classes : List C)
    (sid : Int) (startTok : τ) (docTokens : List (List (τ × Int)))
    (batchProbas : List (List (List P))) : List (List (τ × List (C × P))) :=
  predict_proba maxLength classes sid
    (planBatch maxLength sid startTok docTokens) batchProbas

/-! ## Derived notions used in theorem statements -/

/-- The flattened `(label, position)` stream of one document's chunk run:
per chunk, the window-selected label and char-location sequences, zipped —
exactly the pairs the token loop of `predict` visits, in order. -/
def docPairsHard {τ L : Type} (sid : Int) (stepSize : Int) :
    List (Chunk τ) → List (List L) → List (L × Int)
  | c :: cs, ls :: lss =>
    let startOfDoc := c.firstTokenId = sid
    let endOfDoc :=
      match cs with
      | [] => true
      | c2 :: _ => c2.firstTokenId = sid
    (windowSel startOfDoc endOfDoc stepSize ls).zip
      (windowSel startOfDoc endOfDoc stepSize c.charLocs) ++
    docPairsHard sid stepSize cs lss
  | _, _ => []

/-- Spans described by their cut points: `cuts = [c0, c1, ..., ck]` denotes
the adjacent character intervals `[c0,c1), [c1,c2), ..., [c_(k-1), ck)`,
realised as slices of the document text `X0`. -/
def spanSlices {σ : Type} (X0 : List σ) : List Int → List (List σ)
  | a :: b :: rest => pySlice X0 a b :: spanSlices X0 (b :: rest)
  | _ => []

/-- Lockstep invariant of claim C10: the per-document accumulators have equal
length, the batch accumulators have equal length, and paired emitted records
have equal length. -/
def lockstep {σ L : Type} (st : StitchState σ L) : Prop :=
  st.docSubseqs.length = st.docLabels.length ∧
  st.allSubseqs.length = st.allLabels.length ∧
  ∀ p ∈ st.allSubseqs.zip st.allLabels, p.1.length = p.2.length

/-! ## Helper lemmas: Python slice algebra -/

theorem pyIdx_le_length (len : Nat) (i : Int) : pyIdx len i ≤ len := by
  unfold pyIdx
  split
  · omega
  · omega

theorem pyIdx_zero (len : Nat) : pyIdx len 0 = 0 := by
  simp [pyIdx]

theorem pyIdx_length (len : Nat) : pyIdx len len = len := by
  simp [pyIdx]

theorem pyIdx_mono {a b : Int} (len : Nat) (h0 : 0 ≤ a) (hab : a ≤ b) :
    pyIdx len a ≤ pyIdx len b := by
  unfold pyIdx
  have : ¬ a < 0 := by omega
  have : ¬ b < 0 := by omega
  simp only [*, if_neg, if_false]
  have := Int.toNat_le_toNat hab
  omega

theorem pySlice_zero_length {α : Type} (xs : List α) :
    pySlice xs 0 xs.length = xs := by
  simp [pySlice, pyIdx_zero, pyIdx_length]

theorem pySlice_same {α : Type} (xs : List α) (a : Int) :
    pySlice xs a a = [] := by
  unfold pySlice
  exact List.drop_eq_nil_of_le (by simp [List.length_take])

/-- Adjacent Python slices concatenate: `xs[a:b] + xs[b:c] = xs[a:c]`
for `0 ≤ a ≤ b ≤ c`. -/
theorem pySlice_append_pySlice {α : Type} (xs : List α) {a b c : Int}
    (h0 : 0 ≤ a) (hab : a ≤ b) (hbc : b ≤ c) :
    pySlice xs a b ++ pySlice xs b c = pySlice xs a c := by
  unfold pySlice
  set n := xs.length with hn
  have hab' : pyIdx n a ≤ pyIdx n b := pyIdx_mono n h0 hab
  have hbc' : pyIdx n b ≤ pyIdx n c := pyIdx_mono n (le_trans h0 hab) hbc
  have hbn : pyIdx n b ≤ n := pyIdx_le_length n b
  have hcn : pyIdx n c ≤ n := pyIdx_le_length n c
  have htake : xs.take (pyIdx n b) = (xs.take (pyIdx n c)).take (pyIdx n b) := by
    rw [List.take_take, Nat.min_eq_left hbc']
  rw [htake]
  set ys := xs.take (pyIdx n c) with hys
  have hlys : ys.length = pyIdx n c := by
    rw [hys, List.length_take, hn]
    exact Nat.min_eq_left hcn
  have hsplit : ys = ys.take (pyIdx n b) ++ ys.drop (pyIdx n b) :=
    (List.take_append_drop _ ys).symm
  calc (ys.take (pyIdx n b)).drop (pyIdx n a) ++ ys.drop (pyIdx n b)
      = (ys.take (pyIdx n b) ++ ys.drop (pyIdx n b)).drop (pyIdx n a) := by
        rw [List.drop_append_of_le_length]
        rw [List.length_take]
        have : pyIdx n a ≤ pyIdx n c := le_trans hab' hbc'
        omega
    _ = ys.drop (pyIdx n a) := by rw [← hsplit]

/-! ## Helper lemmas: lists and sorted cut sequences -/

theorem head?_append_left {α : Type} {l : List α} (l' : List α) (h : l ≠ []) :
    (l ++ l').head? = l.head? := by
  cases l with
  | nil => exact absurd rfl h
  | cons a t => simp

theorem getLastD_mem {α : Type} {l : List α} (h : l ≠ []) (d : α) :
    l.getLastD d ∈ l := by
  rw [List.getLastD_eq_getLast?, List.getLast?_eq_getLast l h]
  simp only [Option.getD_some]
  exact List.getLast_mem h

theorem mem_le_getLastD {l : List Int} {x : Int} (hs : l.Sorted (· ≤ ·))
    (hx : x ∈ l) (d : Int) : x ≤ l.getLastD d := by
  have hne : l ≠ [] := List.ne_nil_of_mem hx
  obtain ⟨l', y, hly⟩ : ∃ l' y, l = l' ++ [y] :=
    ⟨l.dropLast, l.getLast hne, (List.dropLast_append_getLast hne).symm⟩
  subst hly
  rw [List.getLastD_concat]
  rcases List.mem_append.1 hx with h | h
  · exact (List.pairwise_append.1 hs).2.2 x h y (List.mem_singleton.2 rfl)
  · rw [List.mem_singleton.1 h]

/-- Appending one more cut to a non-empty cut sequence appends one more
adjacent slice. -/
theorem spanSlices_concat {σ : Type} (X0 : List σ) :
    ∀ (cuts : List Int), cuts ≠ [] → ∀ (p : Int),
      spanSlices X0 (cuts ++ [p]) =
        spanSlices X0 cuts ++ [pySlice X0 (cuts.getLastD 0) p]
  | [], h, _ => absurd rfl h
  | [a], _, p => by simp [spanSlices]
  | a :: b :: rest, _, p => by
    have ih := spanSlices_concat X0 (b :: rest) (by simp) p
    simp only [List.cons_append] at ih ⊢
    simp only [spanSlices, ih, List.getLastD_cons]
    simp

theorem spanSlices_ne_nil_iff {σ : Type} (X0 : List σ) :
    ∀ (cuts : List Int), spanSlices X0 cuts ≠ [] ↔ 2 ≤ cuts.length
  | [] => by simp [spanSlices]
  | [a] => by simp [spanSlices]
  | a :: b :: rest => by simp [spanSlices]

theorem length_spanSlices {σ : Type} (X0 : List σ) :
    ∀ (cuts : List Int), (spanSlices X0 cuts).length + 1 = max cuts.length 1
  | [] => by simp [spanSlices]
  | [a] => by simp [spanSlices]
  | a :: b :: rest => by
    have ih := length_spanSlices X0 (b :: rest)
    simp [spanSlices] at ih ⊢
    omega

/-- Telescoping: the concatenation of the adjacent slices of a sorted,
non-negative cut sequence is the slice from the first cut to the last. -/
theorem flatten_spanSlices {σ : Type} (X0 : List σ) :
    ∀ (cuts : List Int), cuts.Sorted (· ≤ ·) → (∀ c ∈ cuts, 0 ≤ c) →
      cuts ≠ [] →
      (spanSlices X0 cuts).flatten = pySlice X0 (cuts.headD 0) (cuts.getLastD 0)
  | [], _, _, h => absurd rfl h
  | [a], _, _, _ => by simp [spanSlices, pySlice_same]
  | a :: b :: rest, hs, hnn, _ => by
    have hs' : (b :: rest).Sorted (· ≤ ·) := (List.sorted_cons.1 hs).2
    have ih := flatten_spanSlices X0 (b :: rest) hs'
      (fun c hc => hnn c (List.mem_cons_of_mem a hc)) (by simp)
    simp only [spanSlices, List.flatten_cons, ih]
    have hab : a ≤ b := (List.sorted_cons.1 hs).1 b (by simp)
    have hblast : b ≤ (b :: rest).getLastD 0 :=
      mem_le_getLastD hs' (by simp) 0
    rw [show ((b :: rest) : List Int).headD 0 = b from rfl,
      pySlice_append_pySlice X0 (hnn a (by simp)) hab hblast]
    simp [List.getLastD_cons]

/-! ## Helper lemmas: the token loop -/

theorem processToken_allSubseqs {σ L : Type} [DecidableEq L] (X : List (List σ))
    (st : StitchState σ L) (l : L) (p : Int) :
    (processToken X st l p).allSubseqs = st.allSubseqs := by
  unfold processToken
  split
  · rfl
  · split <;> rfl

theorem processToken_allLabels {σ L : Type} [DecidableEq L] (X : List (List σ))
    (st : StitchState σ L) (l : L) (p : Int) :
    (processToken X st l p).allLabels = st.allLabels := by
  unfold processToken
  split
  · rfl
  · split <;> rfl

theorem processToken_docIdx {σ L : Type} [DecidableEq L] (X : List (List σ))
    (st : StitchState σ L) (l : L) (p : Int) :
    (processToken X st l p).docIdx = st.docIdx := by
  unfold processToken
  split
  · rfl
  · split <;> rfl

theorem processTokens_nil {σ L : Type} [DecidableEq L] (X : List (List σ))
    (st : StitchState σ L) : processTokens X [] st = st := rfl

theorem processTokens_cons {σ L : Type} [DecidableEq L] (X : List (List σ))
    (hd : L × Int) (tl : List (L × Int)) (st : StitchState σ L) :
    processTokens X (hd :: tl) st = processTokens X tl (processToken X st hd.1 hd.2) := rfl

theorem processTokens_append {σ L : Type} [DecidableEq L] (X : List (List σ))
    (ps qs : List (L × Int)) (st : StitchState σ L) :
    processTokens X (ps ++ qs) st = processTokens X qs (processTokens X ps st) :=
  List.foldl_append _ _ _ _

theorem processTokens_allSubseqs {σ L : Type} [DecidableEq L] (X : List (List σ)) :
    ∀ (ps : List (L × Int)) (st : StitchState σ L),
      (processTokens X ps st).allSubseqs = st.allSubseqs
  | [], _ => rfl
  | hd :: tl, st => by
    rw [processTokens_cons, processTokens_allSubseqs X tl, processToken_allSubseqs]

theorem processTokens_allLabels {σ L : Type} [DecidableEq L] (X : List (List σ)) :
    ∀ (ps : List (L × Int)) (st : StitchState σ L),
      (processTokens X ps st).allLabels = st.allLabels
  | [], _ => rfl
  | hd :: tl, st => by
    rw [processTokens_cons, processTokens_allLabels X tl, processToken_allLabels]

theorem processTokens_docIdx {σ L : Type} [DecidableEq L] (X : List (List σ)) :
    ∀ (ps : List (L × Int)) (st : StitchState σ L),
      (processTokens X ps st).docIdx = st.docIdx
  | [], _ => rfl
  | hd :: tl, st => by
    rw [processTokens_cons, processTokens_docIdx X tl, processToken_docIdx]

/-- Invariant relating the `predict` loop state for the document in progress
to a sorted, non-negative cut sequence starting at `0`: the accumulated span
texts are exactly the adjacent slices of the cut sequence, the label
accumulator has one label per span with no two adjacent labels equal, and the
cursor sits at the last cut. -/
def StitchInv {σ L : Type} (X : List (List σ)) (st : StitchState σ L)
    (cuts : List Int) : Prop :=
  st.docSubseqs = spanSlices (pyGet X st.docIdx) cuts ∧
  st.docLabels.length + 1 = cuts.length ∧
  st.docLabels.Chain' (· ≠ ·) ∧
  cuts.Sorted (· ≤ ·) ∧
  (∀ c ∈ cuts, 0 ≤ c) ∧
  cuts.head? = some 0 ∧
  st.startOfToken = cuts.getLastD 0

/-- Main loop invariant: running the token loop of `predict` over any pair
list whose non-sentinel positions are sorted and bounded below by the cursor
preserves `StitchInv`, and leaves the cursor at the last non-sentinel
position processed. -/
theorem processTokens_inv {σ L : Type} [DecidableEq L] (X : List (List σ)) :
    ∀ (ps : List (L × Int)) (st : StitchState σ L) (cuts : List Int),
      StitchInv X st cuts →
      ((ps.map Prod.snd).filter (· ≠ -1)).Sorted (· ≤ ·) →
      (∀ x ∈ (ps.map Prod.snd).filter (· ≠ -1), st.startOfToken ≤ x) →
      ∃ cuts', StitchInv X (processTokens X ps st) cuts' ∧
        (processTokens X ps st).startOfToken
          = ((ps.map Prod.snd).filter (· ≠ -1)).getLastD st.startOfToken := by
  intro ps
  induction ps with
  | nil =>
    intro st cuts hinv _ _
    exact ⟨cuts, hinv, by simp [processTokens_nil]⟩
  | cons hd tl ih =>
    intro st cuts hinv hsort hge
    obtain ⟨l, p⟩ := hd
    by_cases hp : p = -1
    · -- sentinel position: the token is skipped and contributes nothing
      have hskip : processToken X st l p = st := by
        simp [processToken, hp]
      have hfilter : (((l, p) :: tl).map Prod.snd).filter (· ≠ -1)
          = (tl.map Prod.snd).filter (· ≠ -1) := by
        simp [List.filter_cons, hp]
      rw [processTokens_cons]
      simp only [hskip, hfilter] at *
      exact ih st cuts hinv hsort hge
    · -- real token
      obtain ⟨hds, hlen, hchain, hsorted, hnn, hhead, hcur⟩ := hinv
      have hfilter : (((l, p) :: tl).map Prod.snd).filter (· ≠ -1)
          = p :: (tl.map Prod.snd).filter (· ≠ -1) := by
        simp [List.filter_cons, hp]
      have hq'sort : ((tl.map Prod.snd).filter (· ≠ -1)).Sorted (· ≤ ·) := by
        rw [hfilter] at hsort
        exact (List.sorted_cons.1 hsort).2
      have hpq' : ∀ x ∈ (tl.map Prod.snd).filter (· ≠ -1), p ≤ x := by
        rw [hfilter] at hsort
        exact (List.sorted_cons.1 hsort).1
      have hcne : cuts ≠ [] := by
        intro h
        rw [h] at hhead
        simp at hhead
      have hcurmem : cuts.getLastD 0 ∈ cuts := getLastD_mem hcne 0
      have hcur0 : 0 ≤ st.startOfToken := hcur ▸ hnn _ hcurmem
      have hcurp : st.startOfToken ≤ p := by
        refine hge p ?_
        rw [hfilter]
        exact List.mem_cons_self p _
      rw [processTokens_cons]
      by_cases hc : st.docSubseqs.isEmpty = true ∨ st.docLabels.getLast? ≠ some l
      · -- a new span is opened at the cursor
        have hst1 : processToken X st l p =
            { st with
              docSubseqs := st.docSubseqs ++
                [pySlice (pyGet X st.docIdx) st.startOfToken p],
              docLabels := st.docLabels ++ [l],
              startOfToken := p } := by
          simp only [processToken, if_neg hp, if_pos hc]
        have hinv1 : StitchInv X (processToken X st l p) (cuts ++ [p]) := by
          rw [hst1]
          refine ⟨?_, ?_, ?_, ?_, ?_, ?_, ?_⟩
          · show st.docSubseqs ++ [pySlice (pyGet X st.docIdx) st.startOfToken p]
              = spanSlices (pyGet X st.docIdx) (cuts ++ [p])
            rw [spanSlices_concat _ cuts hcne p, hds, hcur]
          · show (st.docLabels ++ [l]).length + 1 = (cuts ++ [p]).length
            simp only [List.length_append, List.length_singleton]
            omega
          · show (st.docLabels ++ [l]).Chain' (· ≠ ·)
            refine List.chain'_append.2 ⟨hchain, List.chain'_singleton l, ?_⟩
            intro x hx y hy
            simp only [List.head?_cons, Option.mem_def, Option.some.injEq] at hy
            subst hy
            rcases hc with hemp | hlast
            · exfalso
              have hds0 : st.docSubseqs = [] := List.isEmpty_iff.1 hemp
              rw [hds0] at hds
              have h2 : ¬ 2 ≤ cuts.length := by
                intro h2
                exact (spanSlices_ne_nil_iff (pyGet X st.docIdx) cuts).2 h2 hds.symm
              have : st.docLabels = [] := by
                have := List.length_eq_zero.1 (by omega : st.docLabels.length = 0)
                exact this
              rw [this] at hx
              simp at hx
            · intro hxy
              apply hlast
              rw [← hxy]
              exact hx
          · show (cuts ++ [p]).Sorted (· ≤ ·)
            refine List.pairwise_append.2 ⟨hsorted, List.pairwise_singleton _ _, ?_⟩
            intro x hx y hy
            rw [List.mem_singleton.1 hy]
            exact le_trans (le_trans (mem_le_getLastD hsorted hx 0) hcur.symm.le) hcurp
          · intro c hcm
            rcases List.mem_append.1 hcm with h | h
            · exact hnn c h
            · rw [List.mem_singleton.1 h]
              exact le_trans hcur0 hcurp
          · rw [head?_append_left _ hcne]
            exact hhead
          · show p = (cuts ++ [p]).getLastD 0
            rw [List.getLastD_concat]
        have hst1cur : (processToken X st l p).startOfToken = p := by rw [hst1]
        obtain ⟨cuts'', hinv'', hcur''⟩ :=
          ih (processToken X st l p) (cuts ++ [p]) hinv1 hq'sort
            (by rw [hst1cur]; exact hpq')
        refine ⟨cuts'', hinv'', ?_⟩
        rw [hcur'', hst1cur, hfilter, List.getLastD_cons]
      · -- the open span is extended to the new position
        have hc' := hc
        push_neg at hc'
        obtain ⟨hemp, hlast⟩ := hc'
        have hdsne : st.docSubseqs ≠ [] := by
          intro h
          exact hemp (by rw [h]; rfl)
        have hst1 : processToken X st l p =
            { st with
              docSubseqs := st.docSubseqs.dropLast ++
                [st.docSubseqs.getLastD [] ++
                  pySlice (pyGet X st.docIdx) st.startOfToken p],
              startOfToken := p } := by
          simp only [processToken, if_neg hp, if_neg hc]
        have h2 : 2 ≤ cuts.length := by
          refine (spanSlices_ne_nil_iff (pyGet X st.docIdx) cuts).1 ?_
          rw [← hds]
          exact hdsne
        set cs' := cuts.dropLast with hcs'
        have hdecomp : cs' ++ [cuts.getLast hcne] = cuts :=
          List.dropLast_append_getLast hcne
        set ck := cuts.getLast hcne with hckdef
        have hcs'ne : cs' ≠ [] := by
          have : 0 < cs'.length := by
            rw [hcs', List.length_dropLast]
            omega
          exact List.ne_nil_of_length_pos this
        have hck : cuts.getLastD 0 = ck := by
          rw [← hdecomp, List.getLastD_concat]
        have hlastmem : cs'.getLastD 0 ∈ cuts := by
          rw [← hdecomp]
          exact List.mem_append.2 (Or.inl (getLastD_mem hcs'ne 0))
        have hlast'ck : cs'.getLastD 0 ≤ ck := by
          rw [← hck]
          exact mem_le_getLastD hsorted hlastmem 0
        have hckp : ck ≤ p := by
          rw [← hck, ← hcur]
          exact hcurp
        have hdsdecomp : st.docSubseqs
            = spanSlices (pyGet X st.docIdx) cs' ++
              [pySlice (pyGet X st.docIdx) (cs'.getLastD 0) ck] := by
          rw [hds, ← hdecomp, spanSlices_concat _ cs' hcs'ne ck]
        have hinv1 : StitchInv X (processToken X st l p) (cs' ++ [p]) := by
          rw [hst1]
          refine ⟨?_, ?_, ?_, ?_, ?_, ?_, ?_⟩
          · show st.docSubseqs.dropLast ++
                [st.docSubseqs.getLastD [] ++
                  pySlice (pyGet X st.docIdx) st.startOfToken p]
              = spanSlices (pyGet X st.docIdx) (cs' ++ [p])
            rw [spanSlices_concat _ cs' hcs'ne p, hdsdecomp,
              List.dropLast_concat, List.getLastD_concat, hcur, hck,
              pySlice_append_pySlice _ (hnn _ hlastmem) hlast'ck hckp]
          · show st.docLabels.length + 1 = (cs' ++ [p]).length
            have : cs'.length + 1 = cuts.length := by
              rw [hcs', List.length_dropLast]
              omega
            simp only [List.length_append, List.length_singleton]
            omega
          · exact hchain
          · show (cs' ++ [p]).Sorted (· ≤ ·)
            have hsorted' : (cs' ++ [ck]).Sorted (· ≤ ·) := by
              rw [hdecomp]
              exact hsorted
            refine List.pairwise_append.2
              ⟨(List.pairwise_append.1 hsorted').1, List.pairwise_singleton _ _, ?_⟩
            intro x hx y hy
            rw [List.mem_singleton.1 hy]
            have hxcuts : x ∈ cuts := by
              rw [← hdecomp]
              exact List.mem_append.2 (Or.inl hx)
            exact le_trans (le_trans (mem_le_getLastD hsorted hxcuts 0)
              (le_of_eq hck)) hckp
          · intro c hcm
            rcases List.mem_append.1 hcm with h | h
            · refine hnn c ?_
              rw [← hdecomp]
              exact List.mem_append.2 (Or.inl h)
            · rw [List.mem_singleton.1 h]
              exact le_trans hcur0 hcurp
          · rw [head?_append_left _ hcs'ne, ← head?_append_left [ck] hcs'ne, hdecomp]
            exact hhead
          · show p = (cs' ++ [p]).getLastD 0
            rw [List.getLastD_concat]
        have hst1cur : (processToken X st l p).startOfToken = p := by rw [hst1]
        obtain ⟨cuts'', hinv'', hcur''⟩ :=
          ih (processToken X st l p) (cs' ++ [p]) hinv1 hq'sort
            (by rw [hst1cur]; exact hpq')
        refine ⟨cuts'', hinv'', ?_⟩
        rw [hcur'', hst1cur, hfilter, List.getLastD_cons]

/-! ## Helper lemmas: the chunk loop -/

/-- Processing a run of non-document-initial chunks (with aligned label
sequences) is the token loop over the flattened windowed pairs followed by
the end-of-document emission. -/
theorem stitchChunks_nonstart {σ τ L : Type} [DecidableEq L] (X : List (List σ))
    (sid stepSize : Int) :
    ∀ (cs : List (Chunk τ)) (lss : List (List L)) (st : StitchState σ L),
      cs.length = lss.length → cs ≠ [] → (∀ c ∈ cs, c.firstTokenId ≠ sid) →
      stitchChunks X sid stepSize cs lss st =
        { processTokens X (docPairsHard sid stepSize cs lss) st with
          allSubseqs := (processTokens X (docPairsHard sid stepSize cs lss) st).allSubseqs
            ++ [(processTokens X (docPairsHard sid stepSize cs lss) st).docSubseqs],
          allLabels := (processTokens X (docPairsHard sid stepSize cs lss) st).allLabels
            ++ [(processTokens X (docPairsHard sid stepSize cs lss) st).docLabels] }
  | [], _, _, _, hne, _ => absurd rfl hne
  | [c], [ls], st, _, _, hns => by
    have hcs : c.firstTokenId ≠ sid := hns c (by simp)
    simp [stitchChunks, processChunkHard, docPairsHard, hcs]
  | [_], _ :: _ :: _, _, hlen, _, _ => by simp at hlen
  | _ :: _ :: _, [], _, hlen, _, _ => by simp at hlen
  | _ :: _ :: _, [_], _, hlen, _, _ => by simp at hlen
  | c :: c2 :: cs, ls :: ls2 :: lss, st, hlen, _, hns => by
    have hc : c.firstTokenId ≠ sid := hns c (by simp)
    have hc2 : c2.firstTokenId ≠ sid := hns c2 (by simp)
    have ih := stitchChunks_nonstart X sid stepSize (c2 :: cs) (ls2 :: lss)
      (processChunkHard X sid stepSize false st c ls)
      (by simpa using hlen) (by simp) (fun x hx => hns x (List.mem_cons_of_mem c hx))
    simp only [stitchChunks, eq_false hc2, decide_False] at ih ⊢
    rw [ih]
    simp only [docPairsHard, processTokens_append]
    simp [processChunkHard, hc, hc2]
  termination_by cs _ _ => cs.length

/-- A single-document chunk run (document-initial first chunk, all later
chunks non-initial, labels aligned): `predict`'s loop resets the accumulator,
runs the token loop over the flattened windowed pairs, and emits exactly one
record. -/
theorem stitchChunks_single_doc {σ τ L : Type} [DecidableEq L] (X : List (List σ))
    (sid stepSize : Int) (c0 : Chunk τ) (rest : List (Chunk τ))
    (labels : List (List L)) (h0 : c0.firstTokenId = sid)
    (hrest : ∀ c ∈ rest, c.firstTokenId ≠ sid)
    (hlen : labels.length = rest.length + 1) :
    stitchChunks X sid stepSize (c0 :: rest) labels (initState σ L) =
      { processTokens X (docPairsHard sid stepSize (c0 :: rest) labels)
          (⟨[], [], [], [], 0, 0⟩ : StitchState σ L) with
        allSubseqs := [(processTokens X (docPairsHard sid stepSize (c0 :: rest) labels)
          (⟨[], [], [], [], 0, 0⟩ : StitchState σ L)).docSubseqs],
        allLabels := [(processTokens X (docPairsHard sid stepSize (c0 :: rest) labels)
          (⟨[], [], [], [], 0, 0⟩ : StitchState σ L)).docLabels] } := by
  cases labels with
  | nil => simp at hlen
  | cons l0 lss =>
    have hreset : processChunkHard X sid stepSize false (initState σ L) c0 l0 =
        processTokens X
          ((windowSel true false stepSize l0).zip
            (windowSel true false stepSize c0.charLocs))
          (⟨[], [], [], [], 0, 0⟩ : StitchState σ L) := by
      simp [processChunkHard, h0, initState]
    cases rest with
    | nil =>
      have hlss : lss = [] := by simpa using hlen
      subst hlss
      have hall : ∀ st : StitchState σ L,
          (processTokens X
            ((windowSel true true stepSize l0).zip
              (windowSel true true stepSize c0.charLocs)) st).allSubseqs
            = st.allSubseqs := fun st => processTokens_allSubseqs X _ st
      simp only [stitchChunks, docPairsHard, h0, decide_True, List.append_nil]
      simp [processChunkHard, h0, initState, processTokens_allSubseqs,
        processTokens_allLabels]
    | cons r rest' =>
      have hr : r.firstTokenId ≠ sid := hrest r (by simp)
      have ihtail := stitchChunks_nonstart X sid stepSize (r :: rest') lss
        (processChunkHard X sid stepSize false (initState σ L) c0 l0)
        (by simp at hlen ⊢; omega) (by simp)
        (fun x hx => hrest x hx)
      simp only [stitchChunks, eq_false hr, decide_False] at ihtail ⊢
      rw [ihtail, hreset, ← processTokens_append]
      have hpairs : docPairsHard sid stepSize (c0 :: r :: rest') (l0 :: lss) =
          ((windowSel true false stepSize l0).zip
            (windowSel true false stepSize c0.charLocs)) ++
          docPairsHard sid stepSize (r :: rest') lss := by
        simp [docPairsHard, h0, hr]
      rw [← hpairs]
      have h1 := processTokens_allSubseqs X
        (docPairsHard sid stepSize (c0 :: r :: rest') (l0 :: lss))
        (⟨[], [], [], [], 0, 0⟩ : StitchState σ L)
      have h2 := processTokens_allLabels X
        (docPairsHard sid stepSize (c0 :: r :: rest') (l0 :: lss))
        (⟨[], [], [], [], 0, 0⟩ : StitchState σ L)
      rw [h1, h2]
      simp

/-- Number of end-of-document chunk positions in a chunk stream, as computed
by the loop's look-ahead: a chunk is end-of-document when it is the last
chunk or the next chunk begins with the start marker. -/
def countEnds {τ : Type} (sid : Int) : List (Chunk τ) → Nat
  | [] => 0
  | _ :: cs =>
    (match cs with
     | [] => 1
     | c2 :: _ => if c2.firstTokenId = sid then 1 else 0) + countEnds sid cs

theorem processChunkHard_allSubseqs_length {σ τ L : Type} [DecidableEq L]
    (X : List (List σ)) (sid stepSize : Int) (e : Bool) (st : StitchState σ L)
    (c : Chunk τ) (ls : List L) :
    (processChunkHard X sid stepSize e st c ls).allSubseqs.length
      = st.allSubseqs.length + (if e then 1 else 0) := by
  by_cases hs : c.firstTokenId = sid <;> cases e <;>
    simp [processChunkHard, hs, processTokens_allSubseqs]

theorem processChunkHard_allLabels_length {σ τ L : Type} [DecidableEq L]
    (X : List (List σ)) (sid stepSize : Int) (e : Bool) (st : StitchState σ L)
    (c : Chunk τ) (ls : List L) :
    (processChunkHard X sid stepSize e st c ls).allLabels.length
      = st.allLabels.length + (if e then 1 else 0) := by
  by_cases hs : c.firstTokenId = sid <;> cases e <;>
    simp [processChunkHard, hs, processTokens_allLabels]

/-- With chunk and label counts aligned, the loop emits exactly one record
per end-of-document chunk. -/
theorem stitchChunks_record_count {σ τ L : Type} [DecidableEq L]
    (X : List (List σ)) (sid stepSize : Int) :
    ∀ (chunks : List (Chunk τ)) (labels : List (List L)) (st : StitchState σ L),
      chunks.length = labels.length →
      (stitchChunks X sid stepSize chunks labels st).allSubseqs.length
          = st.allSubseqs.length + countEnds sid chunks ∧
      (stitchChunks X sid stepSize chunks labels st).allLabels.length
          = st.allLabels.length + countEnds sid chunks
  | [], [], st, _ => by simp [stitchChunks, countEnds]
  | [], _ :: _, _, hlen => by simp at hlen
  | _ :: _, [], _, hlen => by simp at hlen
  | c :: cs, ls :: lss, st, hlen => by
    have hlen' : cs.length = lss.length := by simpa using hlen
    cases cs with
    | nil =>
      have hlss : lss = [] := by simpa using hlen'.symm
      subst hlss
      simp [stitchChunks, countEnds, processChunkHard_allSubseqs_length,
        processChunkHard_allLabels_length]
    | cons c2 cs' =>
      have ih := stitchChunks_record_count X sid stepSize (c2 :: cs') lss
        (processChunkHard X sid stepSize (decide (c2.firstTokenId = sid)) st c ls)
        hlen'
      by_cases h2 : c2.firstTokenId = sid
      · simp only [h2, decide_True] at ih
        simp only [stitchChunks, h2, decide_True]
        rw [ih.1, ih.2]
        simp [countEnds, h2, processChunkHard_allSubseqs_length,
          processChunkHard_allLabels_length]
        omega
      · simp only [eq_false h2, decide_False] at ih
        simp only [stitchChunks, eq_false h2, decide_False]
        rw [ih.1, ih.2]
        simp [countEnds, h2, processChunkHard_allSubseqs_length,
          processChunkHard_allLabels_length]

/-- For any non-empty chunk stream, the number of end-of-document positions
is one more than the number of later document-initial chunks. -/
theorem countEnds_cons {τ : Type} (sid : Int) :
    ∀ (cs : List (Chunk τ)) (c : Chunk τ),
      countEnds sid (c :: cs)
        = (cs.filter (fun x => decide (x.firstTokenId = sid))).length + 1
  | [], _ => by simp [countEnds]
  | c2 :: cs', c => by
    have ih := countEnds_cons sid cs' c2
    by_cases h2 : c2.firstTokenId = sid
    · simp only [countEnds] at ih ⊢
      simp [List.filter_cons, h2]
      omega
    · simp only [countEnds] at ih ⊢
      simp [List.filter_cons, h2] at ih ⊢
      omega

/-- Processing two aligned chunk streams in sequence, the second starting at
a document boundary, is the same as processing them one after the other:
documents are handled independently and in input order. -/
theorem stitchChunks_append {σ τ L : Type} [DecidableEq L] (X : List (List σ))
    (sid stepSize : Int) :
    ∀ (cs1 : List (Chunk τ)) (ls1 : List (List L)) (cs2 : List (Chunk τ))
      (ls2 : List (List L)) (st : StitchState σ L),
      cs1.length = ls1.length →
      (∀ c2, cs2.head? = some c2 → c2.firstTokenId = sid) →
      stitchChunks X sid stepSize (cs1 ++ cs2) (ls1 ++ ls2) st
        = stitchChunks X sid stepSize cs2 ls2 (stitchChunks X sid stepSize cs1 ls1 st)
  | [], [], cs2, ls2, st, _, _ => by simp [stitchChunks]
  | [], _ :: _, _, _, _, hlen, _ => by simp at hlen
  | _ :: _, [], _, _, _, hlen, _ => by simp at hlen
  | c :: cs1', l :: ls1', cs2, ls2, st, hlen, hstart => by
    have hlen' : cs1'.length = ls1'.length := by simpa using hlen
    cases cs1' with
    | nil =>
      have hls1' : ls1' = [] := by simpa using hlen'.symm
      subst hls1'
      cases cs2 with
      | nil => simp [stitchChunks]
      | cons c2 cs2' =>
        have h2 : c2.firstTokenId = sid := hstart c2 rfl
        simp [stitchChunks, h2]
    | cons c2 cs1'' =>
      have ih := stitchChunks_append X sid stepSize (c2 :: cs1'') ls1' cs2 ls2
        (processChunkHard X sid stepSize (decide (c2.firstTokenId = sid)) st c l)
        hlen' hstart
      simp only [List.cons_append, stitchChunks] at ih ⊢
      exact ih

/-! ## Helper lemmas: the soft-path chunk loop -/

theorem processChunkProba_result_length {τ C P : Type} (classes : List C)
    (sid stepSize : Int) (e : Bool) (st : ProbaState τ C P) (c : Chunk τ)
    (ps : List (List P)) :
    (processChunkProba classes sid stepSize e st c ps).result.length
      = st.result.length + (if e then 1 else 0) := by
  by_cases hs : c.firstTokenId = sid <;> cases e <;>
    simp [processChunkProba, hs]

/-- With chunk and probability-array counts aligned, `predict_proba`'s loop
emits exactly one record per end-of-document chunk. -/
theorem probaChunks_record_count {τ C P : Type} (classes : List C)
    (sid stepSize : Int) :
    ∀ (chunks : List (Chunk τ)) (probas : List (List (List P)))
      (st : ProbaState τ C P),
      chunks.length = probas.length →
      (probaChunks classes sid stepSize chunks probas st).result.length
        = st.result.length + countEnds sid chunks
  | [], [], st, _ => by simp [probaChunks, countEnds]
  | [], _ :: _, _, hlen => by simp at hlen
  | _ :: _, [], _, hlen => by simp at hlen
  | c :: cs, ps :: pss, st, hlen => by
    have hlen' : cs.length = pss.length := by simpa using hlen
    cases cs with
    | nil =>
      have hpss : pss = [] := by simpa using hlen'.symm
      subst hpss
      simp [probaChunks, countEnds, processChunkProba_result_length]
    | cons c2 cs' =>
      have ih := probaChunks_record_count classes sid stepSize (c2 :: cs') pss
        (processChunkProba classes sid stepSize (decide (c2.firstTokenId = sid)) st c ps)
        hlen'
      by_cases h2 : c2.firstTokenId = sid
      · simp only [h2, decide_True] at ih
        simp only [probaChunks, h2, decide_True]
        rw [ih]
        simp [countEnds, h2, processChunkProba_result_length]
        omega
      · simp only [eq_false h2, decide_False] at ih
        simp only [probaChunks, eq_false h2, decide_False]
        rw [ih]
        simp [countEnds, h2, processChunkProba_result_length]

/-- Soft-path analogue of `stitchChunks_append`: processing two aligned
chunk streams in sequence, the second starting at a document boundary, is
the same as processing them one after the other. -/
theorem probaChunks_append {τ C P : Type} (classes : List C)
    (sid stepSize : Int) :
    ∀ (cs1 : List (Chunk τ)) (ps1 : List (List (List P)))
      (cs2 : List (Chunk τ)) (ps2 : List (List (List P)))
      (st : ProbaState τ C P),
      cs1.length = ps1.length →
      (∀ c, cs2.head? = some c → c.firstTokenId = sid) →
      probaChunks classes sid stepSize (cs1 ++ cs2) (ps1 ++ ps2) st
        = probaChunks classes sid stepSize cs2 ps2
            (probaChunks classes sid stepSize cs1 ps1 st)
  | [], [], cs2, ps2, st, _, _ => by simp [probaChunks]
  | [], _ :: _, _, _, _, hlen, _ => by simp at hlen
  | _ :: _, [], _, _, _, hlen, _ => by simp at hlen
  | c :: cs1', p :: ps1', cs2, ps2, st, hlen, hstart => by
    have hlen' : cs1'.length = ps1'.length := by simpa using hlen
    cases cs1' with
    | nil =>
      have hps1' : ps1' = [] := by simpa using hlen'.symm
      subst hps1'
      cases cs2 with
      | nil => simp [probaChunks]
      | cons c2 cs2' =>
        have h2 : c2.firstTokenId = sid := hstart c2 rfl
        simp [probaChunks, h2]
    | cons c2 cs1'' =>
      have ih := probaChunks_append classes sid stepSize (c2 :: cs1'') ps1' cs2 ps2
        (processChunkProba classes sid stepSize (decide (c2.firstTokenId = sid)) st c p)
        hlen' hstart
      simp only [List.cons_append, probaChunks] at ih ⊢
      exact ih

/-! ## Claim theorems -/

/-- C1: For every chunk processed by `predict` and `predict_proba`, the
authoritative sub-range of its per-token outputs is selected from the
`(is_first, is_last)` flags exactly as the spec's table prescribes — both
flags: the full range; `is_first` only: positions `[0, 2*step_size)`;
`is_last` only: `[step_size, end)`; neither: `[step_size, 2*step_size)` —
and the `step_size` both methods compute is `(max_length - 2) // 3`
(natural-number division for any admissible `max_length ≥ 2`). -/
theorem C1_window_selection :
    (∀ {α : Type} (isFirst isLast : Bool) (stepSize : Int) (xs : List α),
      windowSel isFirst isLast stepSize xs =
        pySlice xs (authRange isFirst isLast stepSize xs.length).1
          (authRange isFirst isLast stepSize xs.length).2) ∧
    (∀ m : Nat, stepOf (m + 2) = ((m / 3 : Nat) : Int)) := by
  constructor
  · intro α isFirst isLast stepSize xs
    cases isFirst <;> cases isLast <;>
      simp [windowSel, authRange, pySlice_zero_length]
  · intro m
    have h : (((m + 2 : Nat) : Int) - 2) = (m : Int) := by push_cast; ring
    rw [stepOf, h, Int.fdiv_eq_ediv _ (by norm_num)]
    simp [Int.ofNat_ediv]

/-- C9: The hard-label operation `_predict_op` and the soft-label operation
`_predict_proba_op` are, for the same logits and the same transition matrix,
the two components of one and the same `sequence_decode` invocation, so the
two paths are consistent for the same chunk. -/
theorem C9_shared_decode {Lo TM A B : Type}
    (sequence_decode : Lo → Option TM → A × B) (logits : Lo)
    (transitionMatrix : Option TM) :
    (predictOp sequence_decode logits transitionMatrix,
      predictProbaOp sequence_decode logits transitionMatrix)
      = sequence_decode logits transitionMatrix := rfl

/-- C4 counterexample: with `max_length = 4` the derived `step_size` is `0`,
yet `predict` raises no error and processes the chunks: on a concrete
two-chunk document it runs to completion and emits a non-empty record
(built entirely from the last chunk, the first chunk's window having
degenerated to `[0,0)`), contradicting the claim that the configuration is
rejected before any chunk is processed. -/
theorem C4_counterexample :
    stepOf 4 = 0 ∧
    predict (σ := Char) (τ := Unit) (L := Nat) 4 7 [['x', 'y', 'z']]
        [⟨7, [-1, 1, 2], [(), (), ()]⟩, ⟨8, [2, 3], [(), ()]⟩]
        [[5, 5, 5], [5, 5]]
      = ([[['x', 'y', 'z']]], [[5]]) ∧
    ([[['x', 'y', 'z']]] : List (List (List Char))) ≠ [] := by
  refine ⟨rfl, by decide, by simp⟩

/-- C4 amended: `predict` and `predict_proba` perform no validation of
`max_length`; for every `max_length` with `(max_length - 2) // 3 = 0`
(i.e. `max_length ∈ {2, 3, 4}`) they proceed with `step_size = 0`, under
which window selection degenerates: every non-final chunk of a document
contributes no positions and each document's final chunk contributes its
full range. -/
theorem C4_amended :
    (stepOf 2 = 0 ∧ stepOf 3 = 0 ∧ stepOf 4 = 0) ∧
    (∀ {α : Type} (isFirst isLast : Bool) (xs : List α),
      windowSel isFirst isLast 0 xs = if isLast then xs else []) := by
  refine ⟨⟨rfl, rfl, rfl⟩, ?_⟩
  intro α isFirst isLast xs
  cases isFirst <;> cases isLast
  · simp [windowSel, pySlice, pyIdx]
  · simp [windowSel, pySlice_zero_length]
  · simp [windowSel, pySlice, pyIdx]
  · simp [windowSel]

/-- C3 counterexample: two chunks of one document paired with a single
decoded label sequence — a chunk/decode count mismatch.  `predict`'s loop
does not fail: it silently zips to the shorter length, processes only the
first chunk, never reaches the end-of-document chunk, and returns normally
with the document's record silently dropped (`all_subseqs = []`). -/
theorem C3_counterexample :
    stitchChunks (τ := Unit) [['x', 'y', 'z']] 7 3
        [⟨7, [1, 2], [(), ()]⟩, ⟨8, [2, 3], [(), ()]⟩] [[0, 0]]
        (initState Char Nat)
      = ⟨[], [], [['x', 'y']], [0], 0, 2⟩ ∧
    ([⟨7, [1, 2], [(), ()]⟩, ⟨8, [2, 3], [(), ()]⟩] : List (Chunk Unit)).length = 2 ∧
    ([[0, 0]] : List (List Nat)).length = 1 := by
  refine ⟨by decide, rfl, rfl⟩

theorem stitchChunks_take {σ τ L : Type} [DecidableEq L] (X : List (List σ))
    (sid stepSize : Int) :
    ∀ (chunks : List (Chunk τ)) (labels : List (List L)) (st : StitchState σ L),
      stitchChunks X sid stepSize chunks labels st
        = stitchChunks X sid stepSize chunks (labels.take chunks.length) st
  | [], _, _ => rfl
  | _ :: _, [], _ => rfl
  | c :: cs, ls :: lss, st => by
    simp only [List.length_cons, List.take_succ_cons, stitchChunks]
    exact stitchChunks_take X sid stepSize cs lss _

theorem probaChunks_take {τ C P : Type} (classes : List C) (sid stepSize : Int) :
    ∀ (chunks : List (Chunk τ)) (probas : List (List (List P)))
      (st : ProbaState τ C P),
      probaChunks classes sid stepSize chunks probas st
        = probaChunks classes sid stepSize chunks (probas.take chunks.length) st
  | [], _, _ => rfl
  | _ :: _, [], _ => rfl
  | c :: cs, ps :: pss, st => by
    simp only [List.length_cons, List.take_succ_cons, probaChunks]
    exact probaChunks_take classes sid stepSize cs pss _

/-- C3 amended: on a chunk/decode count mismatch neither `predict` nor
`predict_proba` fails; both silently iterate over only the first
`min(#chunks, #decoded)` pairs (Python `zip` semantics).  In particular the
result never depends on decoded sequences beyond the chunk count, and (per
the counterexample) chunks beyond the decoded count are silently dropped. -/
theorem C3_amended :
    (∀ {σ τ L : Type} [DecidableEq L] (X : List (List σ)) (sid stepSize : Int)
      (chunks : List (Chunk τ)) (labels : List (List L)) (st : StitchState σ L),
      stitchChunks X sid stepSize chunks labels st
        = stitchChunks X sid stepSize chunks (labels.take chunks.length) st) ∧
    (∀ {τ C P : Type} (classes : List C) (sid stepSize : Int)
      (chunks : List (Chunk τ)) (probas : List (List (List P)))
      (st : ProbaState τ C P),
      probaChunks classes sid stepSize chunks probas st
        = probaChunks classes sid stepSize chunks (probas.take chunks.length) st) :=
  ⟨fun X sid stepSize chunks labels st =>
      stitchChunks_take X sid stepSize chunks labels st,
    fun classes sid stepSize chunks probas st =>
      probaChunks_take classes sid stepSize chunks probas st⟩

/-- C5: for a single-chunk document whose six tokens receive hard labels
`[A,A,B,B,B,A]` (here `A = 0`, `B = 1`) with char-locations `[1..6]` and no
sentinels, `predict`'s stitching emits exactly three spans covering the
character intervals `[0,2)` with `A`, `[2,5)` with `B` and `[5,6)` with `A`
— boundaries exactly at label changes — for every document text. -/
theorem C5_merge_correctness {σ : Type} (text : List σ) :
    predict (τ := Unit) 11 7 [text]
        [⟨7, [1, 2, 3, 4, 5, 6], [(), (), (), (), (), ()]⟩]
        [[0, 0, 1, 1, 1, 0]]
      = ([[pySlice text 0 2, pySlice text 2 5, pySlice text 5 6]], [[0, 1, 0]]) := by
  have h01 : pySlice text 0 1 ++ pySlice text 1 2 = pySlice text 0 2 :=
    pySlice_append_pySlice text (by norm_num) (by norm_num) (by norm_num)
  have h23 : pySlice text 2 3 ++ pySlice text 3 4 = pySlice text 2 4 :=
    pySlice_append_pySlice text (by norm_num) (by norm_num) (by norm_num)
  have h24 : pySlice text 2 4 ++ pySlice text 4 5 = pySlice text 2 5 :=
    pySlice_append_pySlice text (by norm_num) (by norm_num) (by norm_num)
  simp [predict, stitchChunks, processChunkHard, processTokens, processToken,
    windowSel, initState, pyGet, h01, h23, h24]

/-- C2 (failing-input evaluation): the hard path skips every token whose
char-location is the sentinel `-1`, but the soft path does not — on a
single chunk whose first and third positions are sentinels, `predict_proba`
emits all three `(token, distribution)` pairs, including the two
sentinel-position tokens `0` and `2`.  This contradicts the claim for the
soft path. -/
theorem C2_soft_path_emits_sentinels :
    predict_proba (τ := Nat) 11 [10, 20] 7
        [⟨7, [-1, 1, -1], [0, 1, 2]⟩] [[[1, 2], [3, 4], [5, 6]]]
      = [[(0, [(10, 1), (20, 2)]), (1, [(10, 3), (20, 4)]),
          (2, [(10, 5), (20, 6)])]] ∧
    (∀ {σ L : Type} [DecidableEq L] (X : List (List σ)) (st : StitchState σ L)
      (l : L), processToken X st l (-1) = st) := by
  refine ⟨by decide, ?_⟩
  intro σ L _ X st l
  simp [processToken]

theorem lockstep_processToken {σ L : Type} [DecidableEq L] (X : List (List σ))
    (st : StitchState σ L) (l : L) (p : Int) (h : lockstep st) :
    lockstep (processToken X st l p) := by
  obtain ⟨h1, h2, h3⟩ := h
  have hall : ∀ q ∈ (processToken X st l p).allSubseqs.zip
      (processToken X st l p).allLabels, q.1.length = q.2.length := by
    intro q hq
    refine h3 q ?_
    rwa [processToken_allSubseqs, processToken_allLabels] at hq
  have hall2 : (processToken X st l p).allSubseqs.length
      = (processToken X st l p).allLabels.length := by
    rw [processToken_allSubseqs, processToken_allLabels]
    exact h2
  refine ⟨?_, hall2, hall⟩
  by_cases hp : p = -1
  · simpa [processToken, hp] using h1
  · by_cases hc : st.docSubseqs.isEmpty = true ∨ st.docLabels.getLast? ≠ some l
    · simp [processToken, if_neg hp, if_pos hc, h1]
    · have hne : st.docSubseqs ≠ [] := by
        intro hnil
        exact (not_or.1 hc).1 (by rw [hnil]; rfl)
      have hpos : 0 < st.docSubseqs.length := List.length_pos.2 hne
      simp only [processToken, if_neg hp, if_neg hc]
      simp only [List.length_append, List.length_dropLast, List.length_singleton]
      omega

theorem lockstep_processTokens {σ L : Type} [DecidableEq L] (X : List (List σ)) :
    ∀ (ps : List (L × Int)) (st : StitchState σ L), lockstep st →
      lockstep (processTokens X ps st)
  | [], _, h => h
  | hd :: tl, st, h => by
    rw [processTokens_cons]
    exact lockstep_processTokens X tl _ (lockstep_processToken X st hd.1 hd.2 h)

theorem lockstep_emit {σ L : Type} (st : StitchState σ L) (h : lockstep st) :
    lockstep { st with allSubseqs := st.allSubseqs ++ [st.docSubseqs],
                       allLabels := st.allLabels ++ [st.docLabels] } := by
  obtain ⟨h1, h2, h3⟩ := h
  refine ⟨h1, by simp [h2], ?_⟩
  intro q hq
  simp only at hq
  rw [List.zip_append h2] at hq
  rcases List.mem_append.1 hq with hmem | hmem
  · exact h3 q hmem
  · rw [List.mem_singleton.1 hmem]
    exact h1

theorem lockstep_processChunkHard {σ τ L : Type} [DecidableEq L]
    (X : List (List σ)) (sid stepSize : Int) (e : Bool) (st : StitchState σ L)
    (c : Chunk τ) (ls : List L) (h : lockstep st) :
    lockstep (processChunkHard X sid stepSize e st c ls) := by
  obtain ⟨h1, h2, h3⟩ := h
  have hst0 : lockstep (if c.firstTokenId = sid then
      { st with docSubseqs := [], docLabels := [],
                docIdx := st.docIdx + 1, startOfToken := 0 }
    else st) := by
    by_cases hs : c.firstTokenId = sid
    · exact ⟨by simp [hs], by simp [hs, h2], by simpa [hs] using h3⟩
    · exact ⟨by simp [hs, h1], by simp [hs, h2], by simpa [hs] using h3⟩
  have hst1 := lockstep_processTokens X
    ((windowSel (c.firstTokenId = sid) e stepSize ls).zip
      (windowSel (c.firstTokenId = sid) e stepSize c.charLocs)) _ hst0
  obtain ⟨g1, g2, g3⟩ := hst1
  cases e with
  | false => exact ⟨g1, g2, g3⟩
  | true => exact lockstep_emit _ ⟨g1, g2, g3⟩

theorem lockstep_stitchChunks {σ τ L : Type} [DecidableEq L]
    (X : List (List σ)) (sid stepSize : Int) :
    ∀ (chunks : List (Chunk τ)) (labels : List (List L)) (st : StitchState σ L),
      lockstep st → lockstep (stitchChunks X sid stepSize chunks labels st)
  | [], _, _, h => h
  | _ :: _, [], _, h => h
  | c :: cs, ls :: lss, st, h => by
    simp only [stitchChunks]
    exact lockstep_stitchChunks X sid stepSize cs lss _
      (lockstep_processChunkHard X sid stepSize _ st c ls h)

/-- C10: throughout `predict`'s loop the per-document span-text and label
accumulators have equal length and the two batch-level result lists grow in
lockstep: the `lockstep` invariant is preserved by every single token step
and every chunk step, and holds for the final state of every run, so every
emitted document record pairs each span text with exactly one label. -/
theorem C10_lockstep :
    (∀ {σ L : Type} [DecidableEq L] (X : List (List σ)) (st : StitchState σ L)
      (l : L) (p : Int), lockstep st → lockstep (processToken X st l p)) ∧
    (∀ {σ τ L : Type} [DecidableEq L] (X : List (List σ)) (sid stepSize : Int)
      (e : Bool) (st : StitchState σ L) (c : Chunk τ) (ls : List L),
      lockstep st → lockstep (processChunkHard X sid stepSize e st c ls)) ∧
    (∀ {σ τ L : Type} [DecidableEq L] (X : List (List σ)) (sid stepSize : Int)
      (chunks : List (Chunk τ)) (labels : List (List L)),
      lockstep (stitchChunks X sid stepSize chunks labels (initState σ L))) :=
  ⟨fun X st l p h => lockstep_processToken X st l p h,
    fun X sid stepSize e st c ls h =>
      lockstep_processChunkHard X sid stepSize e st c ls h,
    fun X sid stepSize chunks labels =>
      lockstep_stitchChunks X sid stepSize chunks labels (initState _ _)
        ⟨rfl, rfl, by simp [initState]⟩⟩

/-- C10 witness: the invariant discharged and transported at a concrete
state and token. -/
theorem C10_lockstep_witness :
    lockstep (processToken [['a', 'b', 'c']]
      (⟨[], [], [['a']], [4], 0, 1⟩ : StitchState Char Nat) 9 2) :=
  C10_lockstep.1 [['a', 'b', 'c']] ⟨[], [], [['a']], [4], 0, 1⟩ 9 2
    ⟨rfl, rfl, by simp⟩

/-- C6: for every single-document chunk run (document-initial first chunk,
later chunks non-initial, decoded label sequences aligned) whose selected
non-sentinel char-locations arrive in non-decreasing order and non-negative,
`predict` emits exactly one record whose span texts are the adjacent slices
of a sorted non-negative cut sequence starting at `0` — so the character
intervals are non-overlapping and in non-decreasing start order — and whose
label list never repeats a label in adjacent positions (merging is maximal,
including runs crossing chunk boundaries). -/
theorem C6_spans_ordered_maximal {σ τ L : Type} [DecidableEq L]
    (X : List (List σ)) (sid stepSize : Int) (c0 : Chunk τ)
    (rest : List (Chunk τ)) (labels : List (List L))
    (h0 : c0.firstTokenId = sid)
    (hrest : ∀ c ∈ rest, c.firstTokenId ≠ sid)
    (hlen : labels.length = rest.length + 1)
    (hsort : (((docPairsHard sid stepSize (c0 :: rest) labels).map
        Prod.snd).filter (· ≠ -1)).Sorted (· ≤ ·))
    (hnn : ∀ x ∈ ((docPairsHard sid stepSize (c0 :: rest) labels).map
        Prod.snd).filter (· ≠ -1), 0 ≤ x) :
    ∃ cuts lbs,
      (stitchChunks X sid stepSize (c0 :: rest) labels (initState σ L)).allSubseqs
          = [spanSlices (pyGet X 0) cuts] ∧
      (stitchChunks X sid stepSize (c0 :: rest) labels (initState σ L)).allLabels
          = [lbs] ∧
      cuts.Sorted (· ≤ ·) ∧ (∀ c ∈ cuts, 0 ≤ c) ∧ cuts.head? = some 0 ∧
      lbs.Chain' (· ≠ ·) ∧ lbs.length + 1 = cuts.length := by
  rw [stitchChunks_single_doc X sid stepSize c0 rest labels h0 hrest hlen]
  have hinv0 : StitchInv X (⟨[], [], [], [], 0, 0⟩ : StitchState σ L) [0] :=
    ⟨rfl, rfl, List.chain'_nil, List.sorted_singleton 0,
      by intro c hc; rw [List.mem_singleton.1 hc], rfl, rfl⟩
  obtain ⟨cuts', hinv', _⟩ := processTokens_inv X
    (docPairsHard sid stepSize (c0 :: rest) labels)
    (⟨[], [], [], [], 0, 0⟩ : StitchState σ L) [0] hinv0 hsort
    (fun x hx => hnn x hx)
  obtain ⟨hds, hlen', hchain, hsorted, hnn', hhead, _⟩ := hinv'
  have hidx : (processTokens X (docPairsHard sid stepSize (c0 :: rest) labels)
      (⟨[], [], [], [], 0, 0⟩ : StitchState σ L)).docIdx = 0 :=
    processTokens_docIdx X _ _
  refine ⟨cuts',
    (processTokens X (docPairsHard sid stepSize (c0 :: rest) labels)
      (⟨[], [], [], [], 0, 0⟩ : StitchState σ L)).docLabels,
    ?_, rfl, hsorted, hnn', hhead, hchain, hlen'⟩
  show [(processTokens X (docPairsHard sid stepSize (c0 :: rest) labels)
      (⟨[], [], [], [], 0, 0⟩ : StitchState σ L)).docSubseqs]
    = [spanSlices (pyGet X 0) cuts']
  rw [hds, hidx]

/-- C6 witness: a concrete two-chunk single document satisfying the
hypotheses, with the conclusion instantiated. -/
theorem C6_witness :
    ∃ cuts lbs,
      (stitchChunks [['a', 'b', 'c', 'd']] 7 1
          [⟨7, [-1, 1, 2, 3], [(), (), (), ()]⟩, ⟨8, [2, 3, 4], [(), (), ()]⟩]
          [[0, 0, 0, 1], [1, 1, 1]] (initState Char Nat)).allSubseqs
        = [spanSlices (pyGet [['a', 'b', 'c', 'd']] 0) cuts] ∧
      (stitchChunks [['a', 'b', 'c', 'd']] 7 1
          [⟨7, [-1, 1, 2, 3], [(), (), (), ()]⟩, ⟨8, [2, 3, 4], [(), (), ()]⟩]
          [[0, 0, 0, 1], [1, 1, 1]] (initState Char Nat)).allLabels
        = [lbs] ∧
      cuts.Sorted (· ≤ ·) ∧ (∀ c ∈ cuts, 0 ≤ c) ∧ cuts.head? = some 0 ∧
      lbs.Chain' (· ≠ ·) ∧ lbs.length + 1 = cuts.length :=
  C6_spans_ordered_maximal [['a', 'b', 'c', 'd']] 7 1
    ⟨7, [-1, 1, 2, 3], [(), (), (), ()]⟩ [⟨8, [2, 3, 4], [(), (), ()]⟩]
    [[0, 0, 0, 1], [1, 1, 1]] rfl (by decide) rfl (by decide) (by decide)

/-- C7: for every single-document chunk run as in C6, concatenating the span
texts of the emitted record, in order and with nothing inserted,
reconstructs exactly the slice of the document text from character `0` to
the last selected non-sentinel char-location — the contiguous character
range the document's stitched tokens cover. -/
theorem C7_round_trip {σ τ L : Type} [DecidableEq L]
    (X : List (List σ)) (sid stepSize : Int) (c0 : Chunk τ)
    (rest : List (Chunk τ)) (labels : List (List L))
    (h0 : c0.firstTokenId = sid)
    (hrest : ∀ c ∈ rest, c.firstTokenId ≠ sid)
    (hlen : labels.length = rest.length + 1)
    (hsort : (((docPairsHard sid stepSize (c0 :: rest) labels).map
        Prod.snd).filter (· ≠ -1)).Sorted (· ≤ ·))
    (hnn : ∀ x ∈ ((docPairsHard sid stepSize (c0 :: rest) labels).map
        Prod.snd).filter (· ≠ -1), 0 ≤ x) :
    ∃ texts,
      (stitchChunks X sid stepSize (c0 :: rest) labels (initState σ L)).allSubseqs
          = [texts] ∧
      texts.flatten = pySlice (pyGet X 0) 0
        ((((docPairsHard sid stepSize (c0 :: rest) labels).map
            Prod.snd).filter (· ≠ -1)).getLastD 0) := by
  rw [stitchChunks_single_doc X sid stepSize c0 rest labels h0 hrest hlen]
  have hinv0 : StitchInv X (⟨[], [], [], [], 0, 0⟩ : StitchState σ L) [0] :=
    ⟨rfl, rfl, List.chain'_nil, List.sorted_singleton 0,
      by intro c hc; rw [List.mem_singleton.1 hc], rfl, rfl⟩
  obtain ⟨cuts', hinv', hcur⟩ := processTokens_inv X
    (docPairsHard sid stepSize (c0 :: rest) labels)
    (⟨[], [], [], [], 0, 0⟩ : StitchState σ L) [0] hinv0 hsort
    (fun x hx => hnn x hx)
  obtain ⟨hds, hlen', hchain, hsorted, hnn', hhead, hlast⟩ := hinv'
  have hidx : (processTokens X (docPairsHard sid stepSize (c0 :: rest) labels)
      (⟨[], [], [], [], 0, 0⟩ : StitchState σ L)).docIdx = 0 :=
    processTokens_docIdx X _ _
  have hcne : cuts' ≠ [] := by
    intro h
    rw [h] at hhead
    simp at hhead
  have hhd : cuts'.headD 0 = 0 := by
    cases cuts' with
    | nil => exact absurd rfl hcne
    | cons a t =>
      simp only [List.head?_cons, Option.some.injEq] at hhead
      simp [hhead]
  refine ⟨(processTokens X (docPairsHard sid stepSize (c0 :: rest) labels)
      (⟨[], [], [], [], 0, 0⟩ : StitchState σ L)).docSubseqs, rfl, ?_⟩
  rw [hds, hidx, flatten_spanSlices (pyGet X 0) cuts' hsorted hnn' hcne, hhd,
    ← hlast, hcur]

/-- C7 witness: the same concrete two-chunk document as for C6. -/
theorem C7_witness :
    ∃ texts,
      (stitchChunks [['a', 'b', 'c', 'd']] 7 1
          [⟨7, [-1, 1, 2, 3], [(), (), (), ()]⟩, ⟨8, [2, 3, 4], [(), (), ()]⟩]
          [[0, 0, 0, 1], [1, 1, 1]] (initState Char Nat)).allSubseqs
        = [texts] ∧
      texts.flatten = pySlice (pyGet [['a', 'b', 'c', 'd']] 0) 0
        ((((docPairsHard 7 1
            ([⟨7, [-1, 1, 2, 3], [(), (), (), ()]⟩,
              ⟨8, [2, 3, 4], [(), (), ()]⟩] : List (Chunk Unit))
            [[0, 0, 0, 1], [1, 1, 1]]).map Prod.snd).filter
              (· ≠ -1)).getLastD 0) :=
  C7_round_trip [['a', 'b', 'c', 'd']] 7 1
    ⟨7, [-1, 1, 2, 3], [(), (), (), ()]⟩ [⟨8, [2, 3, 4], [(), (), ()]⟩]
    [[0, 0, 0, 1], [1, 1, 1]] rfl (by decide) rfl (by decide) (by decide)

/-- C8 counterexample (spec-modelled planner): per §4.1 a zero-token document
yields zero chunks, so in the two-document batch `["", "bc"]` only the second
document contributes a chunk; `predict` then returns a single record for the
two input documents (and attributes it to document index 0, the empty text),
and `predict_proba` likewise returns a single record — both contradicting
"exactly one output record per input document". -/
theorem C8_counterexample :
    (predictFull (σ := Char) (τ := Unit) (L := Nat) 5 0 ()
        [[], ['b', 'c']] [[], [((), 1), ((), 2)]] [[0, 7, 7]]).1.length = 1 ∧
    (predict_probaFull (τ := Unit) (C := Nat) (P := Nat) 5 [10] 0 ()
        [[], [((), 1), ((), 2)]] [[[1], [1], [1]]]).length = 1 ∧
    ([[], ['b', 'c']] : List (List Char)).length = 2 ∧ (1 : Nat) ≠ 2 := by
  refine ⟨by decide, by decide, rfl, by decide⟩

/-- C8 amended: `predict` and `predict_proba` return exactly one output
record per document that contributes at least one chunk, in input order
(records of consecutive document runs are produced independently and
appended in stream order), including an empty record for a document whose
selected positions produce zero spans; a zero-token document contributes
zero chunks and is silently dropped, shifting the alignment of later
documents.  Formally, for both the hard and the soft path: for an aligned
chunk stream beginning at a document boundary, the number of emitted
records equals the number of document-initial chunks; and processing a
stream split at a document boundary equals processing the two parts in
sequence. -/
theorem C8_amended :
    (∀ {σ τ L : Type} [DecidableEq L] (X : List (List σ)) (sid stepSize : Int)
      (chunks : List (Chunk τ)) (labels : List (List L)),
      chunks.length = labels.length →
      (∀ c, chunks.head? = some c → c.firstTokenId = sid) →
      (stitchChunks X sid stepSize chunks labels (initState σ L)).allSubseqs.length
          = (chunks.filter (fun c => decide (c.firstTokenId = sid))).length ∧
      (stitchChunks X sid stepSize chunks labels (initState σ L)).allLabels.length
          = (chunks.filter (fun c => decide (c.firstTokenId = sid))).length) ∧
    (∀ {τ C P : Type} (classes : List C) (sid stepSize : Int)
      (chunks : List (Chunk τ)) (probas : List (List (List P))),
      chunks.length = probas.length →
      (∀ c, chunks.head? = some c → c.firstTokenId = sid) →
      (probaChunks classes sid stepSize chunks probas
          (initProbaState τ C P)).result.length
        = (chunks.filter (fun c => decide (c.firstTokenId = sid))).length) ∧
    (∀ {σ τ L : Type} [DecidableEq L] (X : List (List σ)) (sid stepSize : Int)
      (cs1 : List (Chunk τ)) (ls1 : List (List L)) (cs2 : List (Chunk τ))
      (ls2 : List (List L)) (st : StitchState σ L),
      cs1.length = ls1.length →
      (∀ c, cs2.head? = some c → c.firstTokenId = sid) →
      stitchChunks X sid stepSize (cs1 ++ cs2) (ls1 ++ ls2) st
        = stitchChunks X sid stepSize cs2 ls2
            (stitchChunks X sid stepSize cs1 ls1 st)) ∧
    (∀ {τ C P : Type} (classes : List C) (sid stepSize : Int)
      (cs1 : List (Chunk τ)) (ps1 : List (List (List P)))
      (cs2 : List (Chunk τ)) (ps2 : List (List (List P)))
      (st : ProbaState τ C P),
      cs1.length = ps1.length →
      (∀ c, cs2.head? = some c → c.firstTokenId = sid) →
      probaChunks classes sid stepSize (cs1 ++ cs2) (ps1 ++ ps2) st
        = probaChunks classes sid stepSize cs2 ps2
            (probaChunks classes sid stepSize cs1 ps1 st)) := by
  refine ⟨?_, ?_, ?_, ?_⟩
  · intro σ τ L _ X sid stepSize chunks labels hlen hstart
    cases chunks with
    | nil =>
      have hl : labels = [] := by simpa using hlen.symm
      subst hl
      simp [stitchChunks, initState]
    | cons c cs =>
      have hc : c.firstTokenId = sid := hstart c rfl
      have h := stitchChunks_record_count X sid stepSize (c :: cs) labels
        (initState σ L) hlen
      constructor
      · rw [h.1, countEnds_cons]
        simp [initState, List.filter_cons, hc]
      · rw [h.2, countEnds_cons]
        simp [initState, List.filter_cons, hc]
  · intro τ C P classes sid stepSize chunks probas hlen hstart
    cases chunks with
    | nil =>
      have hp : probas = [] := by simpa using hlen.symm
      subst hp
      simp [probaChunks, initProbaState]
    | cons c cs =>
      have hc : c.firstTokenId = sid := hstart c rfl
      have h := probaChunks_record_count classes sid stepSize (c :: cs) probas
        (initProbaState τ C P) hlen
      rw [h, countEnds_cons]
      simp [initProbaState, List.filter_cons, hc]
  · intro σ τ L _ X sid stepSize cs1 ls1 cs2 ls2 st hlen hstart
    exact stitchChunks_append X sid stepSize cs1 ls1 cs2 ls2 st hlen hstart
  · intro τ C P classes sid stepSize cs1 ps1 cs2 ps2 st hlen hstart
    exact probaChunks_append classes sid stepSize cs1 ps1 cs2 ps2 st hlen hstart

/-- C8 witness: the record counts and the split-processing equalities of
both paths at concrete two-document streams. -/
theorem C8_amended_witness :
    ((stitchChunks [['a', 'b']] 7 1
        [(⟨7, [1, 2], [(), ()]⟩ : Chunk Unit)] [[0, 0]]
        (initState Char Nat)).allSubseqs.length
      = (([⟨7, [1, 2], [(), ()]⟩] : List (Chunk Unit)).filter
          (fun c => decide (c.firstTokenId = 7))).length ∧
     (stitchChunks [['a', 'b']] 7 1
        [(⟨7, [1, 2], [(), ()]⟩ : Chunk Unit)] [[0, 0]]
        (initState Char Nat)).allLabels.length
      = (([⟨7, [1, 2], [(), ()]⟩] : List (Chunk Unit)).filter
          (fun c => decide (c.firstTokenId = 7))).length) ∧
    (probaChunks [10] 7 1 [(⟨7, [1, 2], [(), ()]⟩ : Chunk Unit)]
        [[[1], [2]]] (initProbaState Unit Nat Nat)).result.length
      = (([⟨7, [1, 2], [(), ()]⟩] : List (Chunk Unit)).filter
          (fun c => decide (c.firstTokenId = 7))).length ∧
    stitchChunks [['a', 'b'], ['c']] 7 1
        ([(⟨7, [1, 2], [(), ()]⟩ : Chunk Unit)] ++ [⟨7, [1], [()]⟩])
        ([[0, 0]] ++ [[1]]) (initState Char Nat)
      = stitchChunks [['a', 'b'], ['c']] 7 1 [(⟨7, [1], [()]⟩ : Chunk Unit)] [[1]]
          (stitchChunks [['a', 'b'], ['c']] 7 1
            [(⟨7, [1, 2], [(), ()]⟩ : Chunk Unit)] [[0, 0]]
            (initState Char Nat)) ∧
    probaChunks [10] 7 1
        ([(⟨7, [1], [()]⟩ : Chunk Unit)] ++ [⟨7, [2], [()]⟩])
        ([[[1]]] ++ [[[2]]]) (initProbaState Unit Nat Nat)
      = probaChunks [10] 7 1 [(⟨7, [2], [()]⟩ : Chunk Unit)] [[[2]]]
          (probaChunks [10] 7 1 [(⟨7, [1], [()]⟩ : Chunk Unit)] [[[1]]]
            (initProbaState Unit Nat Nat)) :=
  ⟨C8_amended.1 [['a', 'b']] 7 1 [⟨7, [1, 2], [(), ()]⟩] [[0, 0]] rfl
      (by intro c hc; simp only [List.head?_cons, Option.some.injEq] at hc;
          rw [← hc]),
    C8_amended.2.1 [10] 7 1 [⟨7, [1, 2], [(), ()]⟩] [[[1], [2]]] rfl
      (by intro c hc; simp only [List.head?_cons, Option.some.injEq] at hc;
          rw [← hc]),
    C8_amended.2.2.1 [['a', 'b'], ['c']] 7 1 [⟨7, [1, 2], [(), ()]⟩] [[0, 0]]
      [⟨7, [1], [()]⟩] [[1]] (initState Char Nat) rfl
      (by intro c hc; simp only [List.head?_cons, Option.some.injEq] at hc;
          rw [← hc]),
    C8_amended.2.2.2 [10] 7 1 [⟨7, [1], [()]⟩] [[[1]]]
      [⟨7, [2], [()]⟩] [[[2]]] (initProbaState Unit Nat Nat) rfl
      (by intro c hc; simp only [List.head?_cons, Option.some.injEq] at hc;
          rw [← hc])⟩

end Finetune
